import Mathlib

/-!
Shallow embedding of the peptide generation-and-filtering engine of
`src/OrdenLexicoDiscretas.py`.

Modelling conventions:
* Python dicts of residue attributes become an association list `amino_acids`
  in source order; `amino_acids[aa]` (which may raise `KeyError`) becomes the
  `Option`-valued lookup `residueOf`.
* Python ints are `Nat`; Python float literals (all exact decimals such as
  `1.8`, `0.5`) are embedded as exact rationals `ℚ`, and `round(x, 2)` as
  round-half-to-even on `ℚ` (`round2`).
* Fallible code returns `Option`: `is_valid_peptide` yields `none` when the
  Python function would raise (`KeyError` on an unknown code, or
  `ZeroDivisionError` on the empty sequence), and `generate_peptides` yields
  `none` when the scan raises.
* `itertools.product(sorted_aas, repeat=k)` becomes the list `allTuples k`,
  in the same (lexicographic, leftmost-significant) order.
* The returned DataFrame rows become the `List Candidate`; the statistics the
  function computes after the scan become `SearchStats` (wall-clock time is
  not modelled).
-/

namespace OrdenLexico

/-- One amino acid's biophysical attributes, as stored in the Python dict
`amino_acids`: integer mass (Daltons), signed decimal hydrophobicity and a
polarity class kept as the source's string tag. -/
structure Residue where
  mass : Nat
  hydrophobicity : ℚ
  polarity : String
deriving DecidableEq, Repr

/-- The residue catalog, in the source's literal order (lines 6-27). -/
def amino_acids : List (Char × Residue) :=
  [ ('A', ⟨89, 1.8, "nonpolar"⟩)
  , ('C', ⟨121, 2.5, "polar"⟩)
  , ('D', ⟨133, -3.5, "negative"⟩)
  , ('E', ⟨147, -3.5, "negative"⟩)
  , ('F', ⟨165, 2.8, "nonpolar"⟩)
  , ('G', ⟨75, -0.4, "nonpolar"⟩)
  , ('H', ⟨155, -3.2, "positive"⟩)
  , ('I', ⟨131, 4.5, "nonpolar"⟩)
  , ('K', ⟨146, -3.9, "positive"⟩)
  , ('L', ⟨131, 3.8, "nonpolar"⟩)
  , ('M', ⟨149, 1.9, "nonpolar"⟩)
  , ('N', ⟨132, -3.5, "polar"⟩)
  , ('P', ⟨115, -1.6, "nonpolar"⟩)
  , ('Q', ⟨146, -3.5, "polar"⟩)
  , ('R', ⟨174, -4.5, "positive"⟩)
  , ('S', ⟨105, -0.8, "polar"⟩)
  , ('T', ⟨119, -0.7, "polar"⟩)
  , ('V', ⟨117, 4.2, "nonpolar"⟩)
  , ('W', ⟨204, -0.9, "nonpolar"⟩)
  , ('Y', ⟨181, -1.3, "polar"⟩) ]

/-- `sorted_aas = sorted(amino_acids.keys())` (line 30). -/
def sorted_aas : List Char :=
  (amino_acids.map Prod.fst).insertionSort (· ≤ ·)

/-- Dictionary access `amino_acids[aa]`; `none` models `KeyError`. -/
def residueOf (c : Char) : Option Residue :=
  amino_acids.lookup c

/-- Total version of the lookup, used only where the source has already
established that the code is in the catalog (the default is never reached in
any reachable call). -/
def residueD (c : Char) : Residue :=
  (residueOf c).getD ⟨0, 0, ""⟩

/-- Look up every code of a sequence left to right; `none` as soon as one
code is missing, as the Python generator expressions over
`amino_acids[aa]` would raise. -/
def lookupResidues : List Char → Option (List Residue)
  | [] => some []
  | c :: t =>
    match residueOf c, lookupResidues t with
    | some r, some rs => some (r :: rs)
    | _, _ => none

/-- The loop of lines 36-38: some window of three consecutive positions
holds three identical codes. -/
def hasTripleRepeat : List Char → Bool
  | a :: b :: c :: rest => (a == b && b == c) || hasTripleRepeat (b :: c :: rest)
  | _ => false

/-- `is_valid_peptide` (lines 33-52). `some b` is a normal boolean return;
`none` is an exception: `KeyError` on a code outside the catalog, or
`ZeroDivisionError` when the sequence is empty (line 41 divides by
`len(sequence)` with no guard). -/
def is_valid_peptide (s : List Char) : Option Bool :=
  if hasTripleRepeat s then some false
  else
    match lookupResidues s with
    | none => none
    | some rs =>
      if s.length = 0 then none
      else
        let mass : Nat := (rs.map Residue.mass).sum
        let avg_hydro : ℚ := (rs.map Residue.hydrophobicity).sum / (s.length : ℚ)
        let nonpolar_count : Nat := (rs.filter (fun r => r.polarity == "nonpolar")).length
        if ¬ (500 ≤ mass ∧ mass ≤ 2000) then some false
        else if avg_hydro ≤ 1 then some false
        else if ((nonpolar_count : ℚ) / (s.length : ℚ)) > 0.5 then some false
        else some true

/-- Round-half-to-even to an integer, Python's `round` on exact values. -/
def roundHalfEven (q : ℚ) : ℤ :=
  let f : ℤ := ⌊q⌋
  if q - f < 1/2 then f
  else if q - f > 1/2 then f + 1
  else if Even f then f else f + 1

/-- Python's `round(x, 2)` on exact decimal values. -/
def round2 (q : ℚ) : ℚ :=
  (roundHalfEven (q * 100) : ℚ) / 100

/-- One row of the result DataFrame (lines 74-79). `sequence` holds the
characters of the joined string. -/
structure Candidate where
  sequence : List Char
  mass : Nat
  hydrophobicity : ℚ
  nonpolar_ratio : ℚ
deriving DecidableEq, Repr

/-- `sum(amino_acids[aa]['mass'] for aa in seq)` (lines 40 and 71), on a
sequence whose codes are all in the catalog. -/
def seqMass (s : List Char) : Nat :=
  (s.map (fun c => (residueD c).mass)).sum

/-- `sum(amino_acids[aa]['hydrophobicity'] for aa in seq)` (lines 41/72). -/
def seqHydroSum (s : List Char) : ℚ :=
  (s.map (fun c => (residueD c).hydrophobicity)).sum

/-- `sum(1 for aa in seq if amino_acids[aa]['polarity'] == 'nonpolar')`
(lines 42/73). -/
def nonpolarCount (s : List Char) : Nat :=
  (s.filter (fun c => (residueD c).polarity == "nonpolar")).length

/-- The record appended at lines 74-79; the source divides by `k`, the
requested length, not by `len(seq)`. -/
def mkCandidate (k : Nat) (s : List Char) : Candidate :=
  { sequence := s
  , mass := seqMass s
  , hydrophobicity := round2 (seqHydroSum s / (k : ℚ))
  , nonpolar_ratio := round2 ((nonpolarCount s : ℚ) / (k : ℚ)) }

/-- The scan loop of lines 68-81: walk the enumeration in order, append a
Candidate for each valid sequence, and break as soon as
`len(results) >= max_results` — a check made only after an append. `none`
propagates an exception raised by `is_valid_peptide`. -/
def collect (k cap : Nat) : List (List Char) → List Candidate → Option (List Candidate)
  | [], acc => some acc
  | s :: rest, acc =>
    match is_valid_peptide s with
    | none => none
    | some false => collect k cap rest acc
    | some true =>
      let acc2 := acc ++ [mkCandidate k s]
      if cap ≤ acc2.length then some acc2 else collect k cap rest acc2

/-- The statistics computed after the scan halts (lines 83-85); wall time is
not modelled. -/
structure SearchStats where
  total_sequences : Nat
  valid_ratio : ℚ
deriving DecidableEq, Repr

/-- `itertools.product(sorted_aas, repeat=k)`: all length-`k` tuples over the
sorted alphabet, leftmost position most significant, in the order the Python
iterator yields them. -/
def allTuples : Nat → List (List Char)
  | 0 => [[]]
  | k + 1 => sorted_aas.flatMap (fun a => (allTuples k).map (a :: ·))

/-- `generate_peptides(k, max_results)` (lines 56-91), printing omitted.
`valid_ratio` mirrors line 85:
`round(len(results) / max_results * 100, 2) if max_results else 0`. -/
def generate_peptides (k max_results : Nat) : Option (List Candidate × SearchStats) :=
  match collect k max_results (allTuples k) [] with
  | none => none
  | some results =>
    some ( results
         , { total_sequences := sorted_aas.length ^ k
           , valid_ratio :=
               if max_results ≠ 0 then
                 round2 ((results.length : ℚ) / (max_results : ℚ) * 100)
               else 0 } )

/-- The Candidate list of a run, `[]` when the run raised. -/
def resultsOf (o : Option (List Candidate × SearchStats)) : List Candidate :=
  (o.map Prod.fst).getD []

/-- Spec-side reading of condition (a): the sequence contains three
identical consecutive codes somewhere. -/
def ContainsTriple (s : List Char) : Prop :=
  ∃ a l1 l2, s = l1 ++ a :: a :: a :: l2

/-! ### Basic facts about the catalog and the enumeration base -/

theorem sorted_aas_eq :
    sorted_aas = ['A', 'C', 'D', 'E', 'F', 'G', 'H', 'I', 'K', 'L',
                  'M', 'N', 'P', 'Q', 'R', 'S', 'T', 'V', 'W', 'Y'] := by
  decide

theorem sorted_aas_length : sorted_aas.length = 20 := by decide

theorem sorted_aas_sorted : sorted_aas.Pairwise (· < ·) := by decide

theorem catalog_isSome : ∀ c ∈ sorted_aas, (residueOf c).isSome = true := by decide

theorem mem_allTuples {k : Nat} {s : List Char} :
    s ∈ allTuples k ↔ s.length = k ∧ ∀ c ∈ s, c ∈ sorted_aas := by
  induction k generalizing s with
  | zero =>
    simp only [allTuples, List.mem_singleton]
    constructor
    · rintro rfl
      exact ⟨rfl, by intro c hc; cases hc⟩
    · rintro ⟨h, -⟩
      exact List.length_eq_zero.mp h
  | succ k ih =>
    simp only [allTuples, List.mem_flatMap, List.mem_map]
    constructor
    · rintro ⟨a, ha, t, ht, rfl⟩
      obtain ⟨hlen, hmem⟩ := ih.mp ht
      refine ⟨by simp [hlen], ?_⟩
      intro c hc
      rcases List.mem_cons.mp hc with rfl | hc
      · exact ha
      · exact hmem _ hc
    · rintro ⟨hlen, hmem⟩
      cases s with
      | nil => simp at hlen
      | cons a t =>
        exact ⟨a, hmem a (List.mem_cons_self _ _),
               t, ih.mpr ⟨by simpa using hlen,
                           fun c hc => hmem c (List.mem_cons_of_mem _ hc)⟩, rfl⟩

theorem allTuples_pairwise (k : Nat) :
    (allTuples k).Pairwise (List.Lex (· < ·)) := by
  induction k with
  | zero => simp [allTuples]
  | succ k ih =>
    rw [allTuples, List.pairwise_flatMap]
    constructor
    · intro a _
      rw [List.pairwise_map]
      exact ih.imp (fun h => List.Lex.cons h)
    · refine sorted_aas_sorted.imp ?_
      intro a b hab
      intro x hx y hy
      obtain ⟨x1, -, rfl⟩ := List.mem_map.mp hx
      obtain ⟨y1, -, rfl⟩ := List.mem_map.mp hy
      exact List.Lex.rel hab

/-! ### The run-length check -/

theorem ContainsTriple.three_le_length {s : List Char} (h : ContainsTriple s) :
    3 ≤ s.length := by
  obtain ⟨a, l1, l2, rfl⟩ := h
  simp [List.length_append]
  omega

theorem hasTripleRepeat_iff (s : List Char) :
    hasTripleRepeat s = true ↔ ContainsTriple s := by
  induction s with
  | nil =>
    simp only [hasTripleRepeat]
    constructor
    · intro h; cases h
    · intro h; exact absurd h.three_le_length (by simp)
  | cons a t ih =>
    match t, ih with
    | [], _ =>
      simp only [hasTripleRepeat]
      constructor
      · intro h; cases h
      · intro h; exact absurd h.three_le_length (by simp)
    | [b], _ =>
      simp only [hasTripleRepeat]
      constructor
      · intro h; cases h
      · intro h; exact absurd h.three_le_length (by simp)
    | b :: c :: v, ih =>
      constructor
      · intro h
        rcases Bool.or_eq_true_iff.mp h with h1 | h2
        · obtain ⟨hab, hbc⟩ := Bool.and_eq_true_iff.mp h1
          have hab := eq_of_beq hab
          have hbc := eq_of_beq hbc
          subst hab; subst hbc
          exact ⟨a, [], v, rfl⟩
        · obtain ⟨x, l1, l2, hx⟩ := ih.mp h2
          exact ⟨x, a :: l1, l2, by simp [hx]⟩
      · rintro ⟨x, l1, l2, hx⟩
        cases l1 with
        | nil =>
          injection hx with h1 hx
          injection hx with h2 hx
          injection hx with h3 hx
          subst h1; subst h2; subst h3
          simp [hasTripleRepeat]
        | cons d l1 =>
          injection hx with h1 hx
          have ht : hasTripleRepeat (b :: c :: v) = true := ih.mpr ⟨x, l1, l2, hx⟩
          simp [hasTripleRepeat, ht]

/-! ### The validity predicate on in-catalog sequences -/

theorem lookupResidues_eq_some {s : List Char}
    (hcat : ∀ c ∈ s, (residueOf c).isSome = true) :
    lookupResidues s = some (s.map residueD) := by
  induction s with
  | nil => rfl
  | cons c t ih =>
    obtain ⟨r, hr⟩ := Option.isSome_iff_exists.mp (hcat c (List.mem_cons_self _ _))
    have ht := ih (fun x hx => hcat x (List.mem_cons_of_mem _ hx))
    simp [lookupResidues, hr, ht, residueD]

theorem is_valid_peptide_eq_true {s : List Char} (hne : s ≠ [])
    (hcat : ∀ c ∈ s, (residueOf c).isSome = true) :
    is_valid_peptide s = some true ↔
      (hasTripleRepeat s = false ∧
       500 ≤ seqMass s ∧ seqMass s ≤ 2000 ∧
       1 < seqHydroSum s / (s.length : ℚ) ∧
       (nonpolarCount s : ℚ) / (s.length : ℚ) ≤ 1 / 2) := by
  have hlen : ¬ s.length = 0 := by simpa [List.length_eq_zero] using hne
  have hmass : ((s.map residueD).map Residue.mass).sum = seqMass s := by
    simp [seqMass, List.map_map]; rfl
  have hhyd : ((s.map residueD).map Residue.hydrophobicity).sum = seqHydroSum s := by
    simp [seqHydroSum, List.map_map]; rfl
  have hnp : ((s.map residueD).filter (fun r => r.polarity == "nonpolar")).length
      = nonpolarCount s := by
    simp only [List.filter_map, List.length_map]
    rfl
  have half : (0.5 : ℚ) = 1 / 2 := by norm_num
  unfold is_valid_peptide
  rw [lookupResidues_eq_some hcat]
  cases htr : hasTripleRepeat s with
  | true => simp
  | false =>
    rw [if_neg (by simp)]
    dsimp only
    rw [if_neg hlen, hmass, hhyd, hnp, half]
    by_cases hc1 : 500 ≤ seqMass s ∧ seqMass s ≤ 2000
    · rw [if_neg (not_not.mpr hc1)]
      by_cases hc2 : seqHydroSum s / (s.length : ℚ) ≤ 1
      · rw [if_pos hc2]
        refine iff_of_false (by simp) ?_
        rintro ⟨-, -, -, hb, -⟩
        exact absurd hc2 (not_le.mpr hb)
      · rw [if_neg hc2]
        by_cases hc3 : ((nonpolarCount s : ℚ) / (s.length : ℚ)) > 1 / 2
        · rw [if_pos hc3]
          refine iff_of_false (by simp) ?_
          rintro ⟨-, -, -, -, hb⟩
          exact absurd hc3 (not_lt.mpr hb)
        · rw [if_neg hc3]
          exact iff_of_true rfl ⟨rfl, hc1.1, hc1.2, not_le.mp hc2, not_lt.mp hc3⟩
    · rw [if_pos hc1]
      refine iff_of_false (by simp) ?_
      rintro ⟨-, hb1, hb2, -, -⟩
      exact hc1 ⟨hb1, hb2⟩

theorem is_valid_isSome {s : List Char} (hne : s ≠ [])
    (hcat : ∀ c ∈ s, (residueOf c).isSome = true) :
    (is_valid_peptide s).isSome = true := by
  have hlen : ¬ s.length = 0 := by simpa [List.length_eq_zero] using hne
  unfold is_valid_peptide
  rw [lookupResidues_eq_some hcat]
  cases htr : hasTripleRepeat s with
  | true => simp
  | false =>
    rw [if_neg (by simp)]
    dsimp only
    rw [if_neg hlen]
    split_ifs <;> simp

theorem is_valid_nil : is_valid_peptide [] = none := rfl

/-! ### The scan loop -/

theorem collect_cons_none {k cap : Nat} {s : List Char}
    {rest : List (List Char)} {acc : List Candidate}
    (hv : is_valid_peptide s = none) :
    collect k cap (s :: rest) acc = none := by
  simp [collect, hv]

theorem collect_cons_false {k cap : Nat} {s : List Char}
    {rest : List (List Char)} {acc : List Candidate}
    (hv : is_valid_peptide s = some false) :
    collect k cap (s :: rest) acc = collect k cap rest acc := by
  simp [collect, hv]

theorem collect_cons_true {k cap : Nat} {s : List Char}
    {rest : List (List Char)} {acc : List Candidate}
    (hv : is_valid_peptide s = some true) :
    collect k cap (s :: rest) acc =
      if cap ≤ (acc ++ [mkCandidate k s]).length then some (acc ++ [mkCandidate k s])
      else collect k cap rest (acc ++ [mkCandidate k s]) := by
  simp [collect, hv]

theorem collect_some {k cap : Nat} :
    ∀ {l : List (List Char)} {acc res : List Candidate},
      collect k cap l acc = some res →
      ∃ l2 : List (List Char), List.Sublist l2 l ∧
        (∀ s ∈ l2, is_valid_peptide s = some true) ∧
        res = acc ++ l2.map (mkCandidate k)
  | [], acc, res => by
    intro h
    simp only [collect, Option.some_inj] at h
    exact ⟨[], List.nil_sublist _, by simp, by simp [← h]⟩
  | s :: rest, acc, res => by
    intro h
    cases hv : is_valid_peptide s with
    | none => rw [collect_cons_none hv] at h; cases h
    | some b =>
      cases b with
      | false =>
        rw [collect_cons_false hv] at h
        obtain ⟨l2, hsub, hval, heq⟩ := collect_some h
        exact ⟨l2, hsub.cons _, hval, heq⟩
      | true =>
        rw [collect_cons_true hv] at h
        split_ifs at h with hcap
        · obtain rfl := Option.some.inj h
          refine ⟨[s], (List.nil_sublist _).cons₂ _, ?_, by simp⟩
          intro x hx
          rcases List.mem_singleton.mp hx with rfl
          exact hv
        · obtain ⟨l2, hsub, hval, heq⟩ := collect_some h
          refine ⟨s :: l2, hsub.cons₂ _, ?_, by simp [heq]⟩
          intro x hx
          rcases List.mem_cons.mp hx with rfl | hx
          · exact hv
          · exact hval _ hx

theorem collect_length_le {k cap : Nat} :
    ∀ {l : List (List Char)} {acc res : List Candidate},
      acc.length < cap → collect k cap l acc = some res → res.length ≤ cap
  | [], acc, res => by
    intro hacc h
    simp only [collect, Option.some_inj] at h
    subst h
    omega
  | s :: rest, acc, res => by
    intro hacc h
    cases hv : is_valid_peptide s with
    | none => rw [collect_cons_none hv] at h; cases h
    | some b =>
      cases b with
      | false =>
        rw [collect_cons_false hv] at h
        exact collect_length_le hacc h
      | true =>
        rw [collect_cons_true hv] at h
        split_ifs at h with hcap
        · obtain rfl := Option.some.inj h
          simp only [List.length_append, List.length_cons, List.length_nil]
          omega
        · refine collect_length_le ?_ h
          simp only [List.length_append, List.length_cons, List.length_nil] at hcap ⊢
          omega

theorem collect_exhausted {k cap : Nat} :
    ∀ {l : List (List Char)} {acc res : List Candidate},
      collect k cap l acc = some res → res.length < cap →
      res = acc ++ (l.filter
        (fun s => is_valid_peptide s == some true)).map (mkCandidate k)
  | [], acc, res => by
    intro h _
    simp only [collect, Option.some_inj] at h
    simp [← h]
  | s :: rest, acc, res => by
    intro h hlt
    cases hv : is_valid_peptide s with
    | none => rw [collect_cons_none hv] at h; cases h
    | some b =>
      cases b with
      | false =>
        rw [collect_cons_false hv] at h
        have ih := collect_exhausted h hlt
        simpa [List.filter_cons, hv] using ih
      | true =>
        rw [collect_cons_true hv] at h
        split_ifs at h with hcap
        · obtain rfl := Option.some.inj h
          exact absurd hcap (by omega)
        · have ih := collect_exhausted h hlt
          simpa [List.filter_cons, hv] using ih

theorem collect_cap_zero {k : Nat} :
    ∀ {l : List (List Char)} {acc res : List Candidate},
      (∃ s ∈ l, is_valid_peptide s = some true) →
      collect k 0 l acc = some res → res.length = acc.length + 1
  | [], acc, res => by
    rintro ⟨s, hs, -⟩ -
    cases hs
  | s :: rest, acc, res => by
    rintro ⟨x, hx, hxv⟩ h
    cases hv : is_valid_peptide s with
    | none => rw [collect_cons_none hv] at h; cases h
    | some b =>
      cases b with
      | false =>
        rw [collect_cons_false hv] at h
        have hxr : x ∈ rest := by
          rcases List.mem_cons.mp hx with rfl | hxr
          · rw [hv] at hxv; cases hxv
          · exact hxr
        exact collect_cap_zero ⟨x, hxr, hxv⟩ h
      | true =>
        rw [collect_cons_true hv, if_pos (Nat.zero_le _)] at h
        obtain rfl := Option.some.inj h
        simp

theorem collect_isSome {k cap : Nat} :
    ∀ {l : List (List Char)} {acc : List Candidate},
      (∀ s ∈ l, (is_valid_peptide s).isSome = true) →
      (collect k cap l acc).isSome = true
  | [], acc => by
    intro _
    simp [collect]
  | s :: rest, acc => by
    intro hall
    have hrest : ∀ x ∈ rest, (is_valid_peptide x).isSome = true :=
      fun x hx => hall x (List.mem_cons_of_mem _ hx)
    cases hv : is_valid_peptide s with
    | none =>
      have hs := hall s (List.mem_cons_self _ _)
      rw [hv] at hs
      cases hs
    | some b =>
      cases b with
      | false =>
        rw [collect_cons_false hv]
        exact collect_isSome hrest
      | true =>
        rw [collect_cons_true hv]
        split_ifs
        · simp
        · exact collect_isSome hrest

/-! ### The generator -/

theorem allTuples_nonempty_of_mem {k : Nat} {s : List Char} (hk : 1 ≤ k)
    (hs : s ∈ allTuples k) : s ≠ [] := by
  obtain ⟨hlen, -⟩ := mem_allTuples.mp hs
  intro h
  rw [h] at hlen
  simp at hlen
  omega

theorem allTuples_isSome {k : Nat} (hk : 1 ≤ k) :
    ∀ s ∈ allTuples k, (is_valid_peptide s).isSome = true := by
  intro s hs
  obtain ⟨hlen, hmem⟩ := mem_allTuples.mp hs
  exact is_valid_isSome (allTuples_nonempty_of_mem hk hs)
    (fun c hc => catalog_isSome c (hmem c hc))

theorem generate_peptides_isSome {k M : Nat} (hk : 1 ≤ k) :
    ∃ res st, generate_peptides k M = some (res, st) := by
  have h := @collect_isSome k M (allTuples k) [] (allTuples_isSome hk)
  obtain ⟨res, hres⟩ := Option.isSome_iff_exists.mp h
  refine ⟨res, ⟨sorted_aas.length ^ k,
      if M ≠ 0 then round2 ((res.length : ℚ) / (M : ℚ) * 100) else 0⟩, ?_⟩
  unfold generate_peptides
  rw [hres]

theorem generate_peptides_elim {k M : Nat} {res : List Candidate}
    {st : SearchStats} (h : generate_peptides k M = some (res, st)) :
    collect k M (allTuples k) [] = some res ∧
      st = ⟨sorted_aas.length ^ k,
            if M ≠ 0 then round2 ((res.length : ℚ) / (M : ℚ) * 100) else 0⟩ := by
  unfold generate_peptides at h
  cases hc : collect k M (allTuples k) [] with
  | none => rw [hc] at h; exact Option.noConfusion h
  | some results =>
    rw [hc] at h
    injection h with h2
    injection h2 with ha hb
    subst ha
    exact ⟨rfl, hb.symm⟩

theorem generate_peptides_zero_k (M : Nat) : generate_peptides 0 M = none := rfl

/-! ### Rounding bounds -/

theorem roundHalfEven_ge_floor (q : ℚ) : ⌊q⌋ ≤ roundHalfEven q := by
  simp only [roundHalfEven]
  split_ifs <;> omega

theorem den_one_add {a b : ℚ} (ha : a.den = 1) (hb : b.den = 1) :
    (a + b).den = 1 := by
  rw [← Rat.coe_int_num_of_den_eq_one ha, ← Rat.coe_int_num_of_den_eq_one hb,
      ← Int.cast_add]
  exact Rat.den_intCast _

theorem hydro_den_catalog :
    ∀ c ∈ sorted_aas, ((residueD c).hydrophobicity * 10).den = 1 := by
  with_unfolding_all decide

theorem seqHydroSum_den {s : List Char} (hmem : ∀ c ∈ s, c ∈ sorted_aas) :
    (seqHydroSum s * 10).den = 1 := by
  induction s with
  | nil =>
    show ((0 : ℚ) * 10).den = 1
    norm_num
  | cons c t ih =>
    have hc : ((residueD c).hydrophobicity * 10).den = 1 :=
      hydro_den_catalog c (hmem c (List.mem_cons_self _ _))
    have ht := ih (fun x hx => hmem x (List.mem_cons_of_mem _ hx))
    have : seqHydroSum (c :: t) * 10
        = (residueD c).hydrophobicity * 10 + seqHydroSum t * 10 := by
      simp [seqHydroSum]
      ring
    rw [this]
    exact den_one_add hc ht

theorem round2_gt_one {q : ℚ} (hden : (q * 10).den = 1) (hq : 1 < q / 7) :
    1 < round2 (q / 7) := by
  set T : ℤ := (q * 10).num with hT
  have hqT : q = (T : ℚ) / 10 := by
    have := Rat.coe_int_num_of_den_eq_one hden
    rw [hT, this]
    ring
  have h70 : (70 : ℚ) < (T : ℚ) := by
    rw [hqT] at hq
    have h7 : (0 : ℚ) < 70 := by norm_num
    calc (70 : ℚ) = 1 * 70 := by ring
    _ < ((T : ℚ) / 10 / 7) * 70 := by
        exact (mul_lt_mul_right h7).mpr hq
    _ = (T : ℚ) := by ring
  have h71 : (71 : ℤ) ≤ T := by exact_mod_cast h70
  have hfloor : (101 : ℤ) ≤ ⌊q / 7 * 100⌋ := by
    apply Int.le_floor.mpr
    rw [hqT]
    push_cast
    rw [div_div, div_mul_eq_mul_div, le_div_iff₀ (by norm_num)]
    have hT100 : (71 : ℚ) ≤ (T : ℚ) := by exact_mod_cast h71
    nlinarith
  have hrne : (101 : ℤ) ≤ roundHalfEven (q / 7 * 100) :=
    le_trans hfloor (roundHalfEven_ge_floor _)
  unfold round2
  rw [lt_div_iff₀ (by norm_num)]
  calc (1 : ℚ) * 100 = 100 := by ring
  _ < 101 := by norm_num
  _ ≤ (roundHalfEven (q / 7 * 100) : ℚ) := by exact_mod_cast hrne

theorem round2_np_le {c : Nat} (hc : c ≤ 3) :
    round2 ((c : ℚ) / 7) ≤ 1 / 2 := by
  interval_cases c <;> with_unfolding_all decide

/-! ### Claim theorems -/

/-- C1: for every nonempty sequence of codes drawn from the catalog,
`is_valid_peptide` returns `True` iff all four conditions hold: no three
consecutive identical codes, mass sum in `[500, 2000]`, mean hydrophobicity
strictly above `1.0`, and nonpolar fraction at most `0.5`. -/
theorem validity_predicate_characterization (s : List Char) (hne : s ≠ [])
    (hcat : ∀ c ∈ s, (residueOf c).isSome = true) :
    is_valid_peptide s = some true ↔
      (¬ ContainsTriple s ∧
       500 ≤ seqMass s ∧ seqMass s ≤ 2000 ∧
       1 < seqHydroSum s / (s.length : ℚ) ∧
       (nonpolarCount s : ℚ) / (s.length : ℚ) ≤ 1 / 2) := by
  rw [is_valid_peptide_eq_true hne hcat]
  have hiff : (hasTripleRepeat s = false) = ¬ ContainsTriple s := by
    rw [← hasTripleRepeat_iff]
    cases hasTripleRepeat s <;> simp
  rw [hiff]

/-- C1 witness: the characterization applied to the concrete valid sequence
`ACCW`. -/
theorem validity_predicate_characterization_witness :
    ¬ ContainsTriple ['A', 'C', 'C', 'W'] ∧
    500 ≤ seqMass ['A', 'C', 'C', 'W'] ∧ seqMass ['A', 'C', 'C', 'W'] ≤ 2000 ∧
    1 < seqHydroSum ['A', 'C', 'C', 'W'] /
        ((['A', 'C', 'C', 'W'] : List Char).length : ℚ) ∧
    (nonpolarCount ['A', 'C', 'C', 'W'] : ℚ) /
        ((['A', 'C', 'C', 'W'] : List Char).length : ℚ) ≤ 1 / 2 :=
  (validity_predicate_characterization ['A', 'C', 'C', 'W']
      (by decide) (by decide)).mp (by with_unfolding_all decide)

/-- C2: for every `k ≥ 1`, `maxResults ≥ 1`, the returned Candidate list is in
strictly increasing lexicographic order of the underlying sequence, and the
enumeration base itself is strictly increasing lexicographically. -/
theorem order_invariant (k M : Nat) (res : List Candidate) (st : SearchStats)
    (hk : 1 ≤ k) (hM : 1 ≤ M)
    (h : generate_peptides k M = some (res, st)) :
    (allTuples k).Pairwise (List.Lex (· < ·)) ∧
    (res.map Candidate.sequence).Pairwise (List.Lex (· < ·)) := by
  obtain ⟨hcol, -⟩ := generate_peptides_elim h
  refine ⟨allTuples_pairwise k, ?_⟩
  obtain ⟨l2, hsub, -, heq⟩ := collect_some hcol
  rw [heq]
  simp only [List.nil_append, List.map_map]
  have hid : (Candidate.sequence ∘ mkCandidate k) = id := rfl
  rw [hid, List.map_id]
  exact List.Pairwise.sublist hsub (allTuples_pairwise k)

/-- C2 witness: the order invariant applied to the concrete run `k = 1`,
`maxResults = 1` (which returns the empty list). -/
theorem order_invariant_witness :
    (allTuples 1).Pairwise (List.Lex (· < ·)) ∧
    (([] : List Candidate).map Candidate.sequence).Pairwise (List.Lex (· < ·)) :=
  order_invariant 1 1 [] ⟨20, 0⟩ (by decide) (by decide)
    (by with_unfolding_all decide)

/-- C3: for every `k ≥ 1` and `maxResults = M ≥ 1`, the returned list has
length at most `M`, and if fewer than `M` results were returned the scan was
exhaustive, so the length equals the number of valid sequences in the whole
space. -/
theorem cap_respected (k M : Nat) (res : List Candidate) (st : SearchStats)
    (hk : 1 ≤ k) (hM : 1 ≤ M)
    (h : generate_peptides k M = some (res, st)) :
    res.length ≤ M ∧
    (res.length < M →
      res.length = (allTuples k).countP
        (fun s => is_valid_peptide s == some true)) := by
  obtain ⟨hcol, -⟩ := generate_peptides_elim h
  constructor
  · exact collect_length_le (by simpa using hM) hcol
  · intro hlt
    have hex := collect_exhausted hcol hlt
    rw [hex]
    simp [List.countP_eq_length_filter]

/-- C3 witness: the cap theorem applied to the concrete run `k = 1`,
`maxResults = 1`. -/
theorem cap_respected_witness :
    ([] : List Candidate).length ≤ 1 ∧
    (([] : List Candidate).length < 1 →
      ([] : List Candidate).length = (allTuples 1).countP
        (fun s => is_valid_peptide s == some true)) :=
  cap_respected 1 1 [] ⟨20, 0⟩ (by decide) (by decide)
    (by with_unfolding_all decide)

/-- C4 counterexample: with `k = 1 ≥ 1` and `maxResults = 0 < 1` the call is
not rejected: it runs the full scan and produces a (here empty) Candidate
list together with statistics, so no `InvalidParameter`-style error occurs. -/
theorem invalid_parameter_cex : generate_peptides 1 0 = some ([], ⟨20, 0⟩) := by
  decide

/-- C4 amended: `generate_peptides` performs no parameter validation at all.
For `k = 0` the call fails (with a `ZeroDivisionError` inside the validity
predicate, modelled as `none`) rather than being rejected up front, and for
every `k ≥ 1` — including `maxResults < 1` — the call proceeds and returns a
Candidate list. -/
theorem no_parameter_validation :
    (∀ M, generate_peptides 0 M = none) ∧
    (∀ k M, 1 ≤ k → (generate_peptides k M).isSome = true) := by
  constructor
  · exact generate_peptides_zero_k
  · intro k M hk
    obtain ⟨res, st, h⟩ := generate_peptides_isSome (k := k) (M := M) hk
    rw [h]
    rfl

/-- C4 amended witness: concrete instances of both halves. -/
theorem no_parameter_validation_witness :
    generate_peptides 0 5 = none ∧ (generate_peptides 1 0).isSome = true :=
  ⟨no_parameter_validation.1 5, no_parameter_validation.2 1 0 (by decide)⟩

set_option maxRecDepth 20000 in
/-- C5 counterexample: at `k = 4`, `maxResults = 1` the scan collects one
candidate, so `validCount / maxResults = 1`, but the reported validation
ratio is `100` (the code stores a rounded percentage, not the ratio). -/
theorem validation_ratio_cex :
    (generate_peptides 4 1).map
      (fun p => (p.2.valid_ratio, (p.1.length : ℚ) / (1 : ℚ))) = some (100, 1) ∧
    (100 : ℚ) ≠ (1 : ℚ) := by
  constructor
  · with_unfolding_all decide
  · norm_num

/-- C5 amended: for `maxResults = M ≥ 1` the reported validation ratio equals
`round(validCount / maxResults * 100, 2)` — a cap-fill percentage rounded
half-to-even to two decimals, not the bare quotient. -/
theorem validation_ratio_formula (k M : Nat) (res : List Candidate)
    (st : SearchStats) (hM : 1 ≤ M)
    (h : generate_peptides k M = some (res, st)) :
    st.valid_ratio = round2 ((res.length : ℚ) / (M : ℚ) * 100) := by
  obtain ⟨-, hst⟩ := generate_peptides_elim h
  subst hst
  simp only
  rw [if_pos (by omega : M ≠ 0)]

/-- C5 amended witness: the formula applied to the concrete run `k = 1`,
`maxResults = 1`. -/
theorem validation_ratio_formula_witness :
    (SearchStats.mk 20 0).valid_ratio =
      round2 (((([] : List Candidate).length : ℚ)) / ((1 : Nat) : ℚ) * 100) :=
  validation_ratio_formula 1 1 [] ⟨20, 0⟩ (by decide)
    (by with_unfolding_all decide)

/-- C6: for the reference scenario `k = 7`, `maxResults = 50`, the returned
list has length at most `50`, and every returned Candidate has stored mass in
`[500, 2000]`, stored (2-decimal rounded) hydrophobicity strictly above `1`,
stored (2-decimal rounded) nonpolar ratio at most `1/2`, and a sequence with
no three identical consecutive characters. -/
theorem scenario_k7 :
    (resultsOf (generate_peptides 7 50)).length ≤ 50 ∧
    ((resultsOf (generate_peptides 7 50)).all fun c =>
       decide (500 ≤ c.mass) && decide (c.mass ≤ 2000) &&
       decide ((1 : ℚ) < c.hydrophobicity) &&
       decide (c.nonpolar_ratio ≤ 1 / 2) &&
       !(hasTripleRepeat c.sequence)) = true := by
  obtain ⟨res, st, h⟩ := generate_peptides_isSome (k := 7) (M := 50) (by norm_num)
  obtain ⟨hcol, -⟩ := generate_peptides_elim h
  have hres : resultsOf (generate_peptides 7 50) = res := by rw [h]; rfl
  rw [hres]
  constructor
  · exact collect_length_le (by simp) hcol
  · rw [List.all_eq_true]
    intro c hc
    obtain ⟨l2, hsub, hval, heq⟩ := collect_some hcol
    rw [heq] at hc
    simp only [List.nil_append] at hc
    obtain ⟨s, hs2, rfl⟩ := List.mem_map.mp hc
    have hsAll : s ∈ allTuples 7 := hsub.subset hs2
    obtain ⟨hlen7, hmemcat⟩ := mem_allTuples.mp hsAll
    have hcat : ∀ x ∈ s, (residueOf x).isSome = true :=
      fun x hx => catalog_isSome x (hmemcat x hx)
    have hne : s ≠ [] := by
      intro hnil
      rw [hnil] at hlen7
      simp at hlen7
    obtain ⟨htrip, hm1, hm2, hhyd, hnpr⟩ :=
      (is_valid_peptide_eq_true hne hcat).mp (hval s hs2)
    rw [hlen7] at hhyd hnpr
    push_cast at hhyd hnpr
    have hnp3 : nonpolarCount s ≤ 3 := by
      rw [div_le_iff₀ (by norm_num : (0 : ℚ) < 7)] at hnpr
      have h4 : (nonpolarCount s : ℚ) < 4 := by linarith
      have h4n : nonpolarCount s < 4 := by exact_mod_cast h4
      omega
    have hhyd2 : 1 < round2 (seqHydroSum s / 7) :=
      round2_gt_one (seqHydroSum_den hmemcat) hhyd
    have hnp2 : round2 ((nonpolarCount s : ℚ) / 7) ≤ 1 / 2 := round2_np_le hnp3
    simp only [mkCandidate, Bool.and_eq_true, decide_eq_true_eq,
      Bool.not_eq_true', Nat.cast_ofNat]
    exact ⟨⟨⟨⟨hm1, hm2⟩, hhyd2⟩, hnp2⟩, htrip⟩

/-- C7: every sequence containing three identical consecutive codes is
rejected by the validity predicate; every sequence without such a triple
passes condition (a); in particular sequences of length at most 2 always pass
condition (a). -/
theorem run_length_property (s : List Char) :
    (ContainsTriple s → is_valid_peptide s = some false) ∧
    (¬ ContainsTriple s → hasTripleRepeat s = false) ∧
    (s.length ≤ 2 → hasTripleRepeat s = false) := by
  have hnot : ¬ ContainsTriple s → hasTripleRepeat s = false := by
    intro h
    cases htr : hasTripleRepeat s with
    | false => rfl
    | true => exact absurd ((hasTripleRepeat_iff s).mp htr) h
  refine ⟨?_, hnot, ?_⟩
  · intro h
    have htr : hasTripleRepeat s = true := (hasTripleRepeat_iff s).mpr h
    unfold is_valid_peptide
    rw [if_pos htr]
  · intro hlen
    refine hnot ?_
    intro hct
    have h3 := hct.three_le_length
    omega

/-- C7 witness: the three parts at concrete sequences (`AAAC` holds a triple,
`ACA` and `AC` do not). -/
theorem run_length_property_witness :
    is_valid_peptide ['A', 'A', 'A', 'C'] = some false ∧
    hasTripleRepeat ['A', 'C', 'A'] = false ∧
    hasTripleRepeat ['A', 'C'] = false :=
  ⟨(run_length_property ['A', 'A', 'A', 'C']).1 ⟨'A', [], ['C'], rfl⟩,
   (run_length_property ['A', 'C', 'A']).2.1
     (fun h => absurd ((hasTripleRepeat_iff ['A', 'C', 'A']).mpr h) (by decide)),
   (run_length_property ['A', 'C']).2.2 (by decide)⟩

/-- C8: for every `k ≥ 1` and any cap, the reported total number of possible
sequences is `alphabetSize ^ k`, i.e. `20 ^ k`, however early the scan
stopped. -/
theorem total_sequences_analytic (k M : Nat) (res : List Candidate)
    (st : SearchStats) (hk : 1 ≤ k)
    (h : generate_peptides k M = some (res, st)) :
    st.total_sequences = sorted_aas.length ^ k ∧ st.total_sequences = 20 ^ k := by
  obtain ⟨-, hst⟩ := generate_peptides_elim h
  subst hst
  exact ⟨rfl, by rw [sorted_aas_length]⟩

/-- C8 witness: the statistic at the concrete run `k = 1`, `maxResults = 1`. -/
theorem total_sequences_analytic_witness :
    (SearchStats.mk 20 0).total_sequences = sorted_aas.length ^ 1 ∧
    (SearchStats.mk 20 0).total_sequences = 20 ^ 1 :=
  total_sequences_analytic 1 1 [] ⟨20, 0⟩ (by decide)
    (by with_unfolding_all decide)

/-- C9: with `maxResults = 0` and `k ≥ 1` such that a valid length-`k`
sequence exists, the returned list has length exactly 1: the cap is checked
only after an append, so a zero cap still lets the first candidate in. -/
theorem cap_zero_collects_one (k : Nat) (hk : 1 ≤ k)
    (hex : ∃ s ∈ allTuples k, is_valid_peptide s = some true) :
    ∃ res st, generate_peptides k 0 = some (res, st) ∧ res.length = 1 := by
  obtain ⟨res, st, h⟩ := generate_peptides_isSome (k := k) (M := 0) hk
  obtain ⟨hcol, -⟩ := generate_peptides_elim h
  refine ⟨res, st, h, ?_⟩
  have hone := collect_cap_zero hex hcol
  simpa using hone

set_option maxRecDepth 20000 in
/-- C9 witness: at `k = 4` the valid sequence `ACCW` exists, so the zero-cap
run returns exactly one candidate. -/
theorem cap_zero_collects_one_witness :
    ∃ res st, generate_peptides 4 0 = some (res, st) ∧ res.length = 1 :=
  cap_zero_collects_one 4 (by decide)
    ⟨['A', 'C', 'C', 'W'], by decide, by with_unfolding_all decide⟩

/-- C10: the validity predicate divides by the sequence length without a
guard: on every nonempty in-catalog sequence it returns a boolean, on the
empty sequence it fails (division by zero), the `k = 0` enumeration consists
of exactly the empty tuple, and so `generate_peptides 0 M` fails rather than
reporting a configuration error. -/
theorem unguarded_division :
    (∀ s : List Char, s ≠ [] → (∀ c ∈ s, (residueOf c).isSome = true) →
      ∃ b, is_valid_peptide s = some b) ∧
    is_valid_peptide [] = none ∧
    allTuples 0 = [[]] ∧
    (∀ M, generate_peptides 0 M = none) := by
  refine ⟨?_, rfl, rfl, generate_peptides_zero_k⟩
  intro s hne hcat
  exact Option.isSome_iff_exists.mp (is_valid_isSome hne hcat)

/-- C10 witness: the nonempty half applied to the concrete sequence `G`, and
the failing `k = 0` call at a concrete cap. -/
theorem unguarded_division_witness :
    (∃ b, is_valid_peptide ['G'] = some b) ∧ generate_peptides 0 3 = none :=
  ⟨unguarded_division.1 ['G'] (by decide) (by decide),
   unguarded_division.2.2.2 3⟩

end OrdenLexico
